import Mathlib

/-!
Shallow embedding of the photo-manager frontend core
(`src/utils/smartSelect.ts`, `src/hooks/useSortedPhotos.ts`,
`src/store/photoStore.ts`) and proofs about it.

Conventions used throughout:
* JS strings are Lean `String`s; regular-expression tests from the source
  are translated into explicit scans over `String.data` (`List Char`).
* A JS `Set` is modelled by a `List` together with membership; the code
  under verification only ever tests membership of sets it builds.
* JS `Array.prototype.sort` is required (ES2019) to be stable; a stable
  sort by a total preorder has a unique result, so it is modelled by a
  stable insertion sort on the same comparison key.
-/

/-- `PhotoFile` record from `src/store/photoStore.ts`. -/
structure RelatedFile where
  path : String
  name : String
  kind : String
deriving DecidableEq

structure PhotoFile where
  id : String
  path : String
  name : String
  directory : String
  extension : String
  size : Nat
  modifiedAt : Int
  hash : Option String
  thumbnailPath : Option String
  relatedFiles : List RelatedFile
  isDuplicate : Bool
  duplicateOf : Option String
deriving DecidableEq

/-- `DuplicateGroup` from `src/hooks/useSortedPhotos.ts`. -/
structure DuplicateGroup where
  originalId : String
  original : PhotoFile
  duplicates : List PhotoFile
deriving DecidableEq

/-- `DirectoryConfig` from `src/store/photoStore.ts`. -/
structure DirectoryConfig where
  path : String
  enabled : Bool
  name : String
deriving DecidableEq

/-! ### String scanning helpers (JS `String.includes` and the regexes) -/

/-- Does `hay` start with `needle`? (character-list version). -/
def charsStartWith : List Char → List Char → Bool
  | [], _ => true
  | _ :: _, [] => false
  | a :: as, b :: bs => a == b && charsStartWith as bs

/-- Does `hay` contain `needle` as a contiguous substring?
Models JS `hay.includes(needle)`. -/
def charsContain (needle : List Char) : List Char → Bool
  | [] => charsStartWith needle []
  | c :: rest => charsStartWith needle (c :: rest) || charsContain needle rest

/-- Four ASCII digits followed by a slash (the `\d\x7b4\x7d/` tail of the
year-folder regex). -/
def yearSlashAt : List Char → Bool
  | a :: b :: c :: d :: e :: _ =>
    a.isDigit && b.isDigit && c.isDigit && d.isDigit && (e == '/')
  | _ => false

/-- The year-folder regex matches at the head of `l`:
literal `/Camera Uploads/` (16 characters) then four digits then `/`. -/
def yearFolderAt (l : List Char) : Bool :=
  charsStartWith "/Camera Uploads/".data l && yearSlashAt (l.drop 16)

/-- The year-folder regex matches somewhere in `l` (regex search). -/
def yearFolderFrom : List Char → Bool
  | [] => false
  | c :: rest => yearFolderAt (c :: rest) || yearFolderFrom rest

/-- JS `path.split(sep).pop()`: the part of `l` after its last `'/'`
(the whole of `l` when there is no `'/'`). -/
def lastComponent (l : List Char) : List Char :=
  l.foldl (fun acc c => if c == '/' then [] else acc ++ [c]) []

/-- The filename-date regex `^\d\x7b4\x7d-\d\x7b2\x7d-\d\x7b2\x7d` matches
at the head of `l`. -/
def dateNameStart : List Char → Bool
  | y1 :: y2 :: y3 :: y4 :: s1 :: m1 :: m2 :: s2 :: d1 :: d2 :: _ =>
    y1.isDigit && y2.isDigit && y3.isDigit && y4.isDigit && (s1 == '-') &&
    m1.isDigit && m2.isDigit && (s2 == '-') && d1.isDigit && d2.isDigit
  | _ => false

/-! ### `src/utils/smartSelect.ts` -/

/-- `isCameraUploadsPath` (smartSelect.ts:5-8):
`path.includes('/Dropbox/Camera Uploads/') || path.includes('Dropbox/Camera Uploads/')`. -/
def isCameraUploadsPath (path : String) : Bool :=
  charsContain "/Dropbox/Camera Uploads/".data path.data ||
  charsContain "Dropbox/Camera Uploads/".data path.data

/-- `isYearFolderPath` (smartSelect.ts:12-15): the regex
`/Camera Uploads/` followed by four digits and `/`, searched anywhere in
the path. -/
def isYearFolderPath (path : String) : Bool :=
  yearFolderFrom path.data

/-- `isDateNamedFile` (smartSelect.ts:19-24): extract the filename
(`path.split('/').pop() || ''`) and test `^\d\x7b4\x7d-\d\x7b2\x7d-\d\x7b2\x7d`. -/
def isDateNamedFile (path : String) : Bool :=
  dateNameStart (lastComponent path.data)

/-- `getFullySelectedGroups` (smartSelect.ts:28-41): count the groups in
which every member (`[group.original, ...group.duplicates]`) has its id in
`selectedIds`. -/
def getFullySelectedGroups (groups : List DuplicateGroup)
    (selectedIds : List String) : Nat :=
  groups.foldl
    (fun count group =>
      if (group.original :: group.duplicates).all
          (fun p => selectedIds.contains p.id)
      then count + 1 else count)
    0

/-- `applySmartRules` (smartSelect.ts:66-110), translated clause by clause.
The three `let` blocks are rules 1-3; each returns the photos it pushes
onto `toDelete` together with the surviving candidate list. -/
def applySmartRules (photos : List PhotoFile) : List PhotoFile :=
  if photos.length ≤ 1 then [] else
  let candidates := photos
  -- Rule 1: Camera Uploads year folders are highest priority
  let inYearFolder := candidates.filter (fun p => isYearFolderPath p.path)
  let notInYearFolder := candidates.filter (fun p => !isYearFolderPath p.path)
  let step1 :=
    if inYearFolder.length > 0 && notInYearFolder.length > 0 then
      (notInYearFolder, inYearFolder)
    else ([], candidates)
  -- Rule 2: Prefer date-named files over camera-generated names
  let step2 :=
    if step1.2.length > 1 then
      let dateNamed := step1.2.filter (fun p => isDateNamedFile p.path)
      let notDateNamed := step1.2.filter (fun p => !isDateNamedFile p.path)
      if dateNamed.length > 0 && notDateNamed.length > 0 then
        (notDateNamed, dateNamed)
      else ([], step1.2)
    else ([], step1.2)
  -- Rule 3: Prefer Camera Uploads over non-Camera Uploads
  let step3 :=
    if step2.2.length > 1 then
      let cameraUploads := step2.2.filter (fun p => isCameraUploadsPath p.path)
      let nonCameraUploads := step2.2.filter (fun p => !isCameraUploadsPath p.path)
      if cameraUploads.length > 0 && nonCameraUploads.length > 0 then
        nonCameraUploads
      else []
    else []
  step1.1 ++ step2.1 ++ step3

/-- `getSmartSelections` (smartSelect.ts:44-59): union over the groups of
the per-group deletion candidates' ids. The JS `Set` is modelled by the
list of ids added to it (membership is what the callers consume). -/
def getSmartSelections (groups : List DuplicateGroup) : List String :=
  groups.foldl
    (fun toSelect group =>
      toSelect ++
        (applySmartRules (group.original :: group.duplicates)).map
          (fun p => p.id))
    []

/-! ### The ordered narrowing rule engine, stated from the claim's words

`ruleStep` is one rule of the engine exactly as the spec describes it:
if the rule splits the surviving candidates into a non-empty preferred
subset and a non-empty other subset, the other subset is moved into the
deletion set and only the preferred subset survives; otherwise the state
is unchanged. `narrowingEngine` chains the three rules in order. -/

def ruleStep (preferredPred : PhotoFile → Bool)
    (st : List PhotoFile × List PhotoFile) : List PhotoFile × List PhotoFile :=
  let preferred := st.2.filter preferredPred
  let other := st.2.filter (fun p => !preferredPred p)
  if preferred ≠ [] ∧ other ≠ [] then (st.1 ++ other, preferred) else st

def narrowingEngine (photos : List PhotoFile) :
    List PhotoFile × List PhotoFile :=
  ruleStep (fun p => isCameraUploadsPath p.path)
    (ruleStep (fun p => isDateNamedFile p.path)
      (ruleStep (fun p => isYearFolderPath p.path) ([], photos)))

lemma length_filter_add_length_filter_not (p : α → Bool) (l : List α) :
    (l.filter p).length + (l.filter (fun a => !p a)).length = l.length := by
  induction l with
  | nil => rfl
  | cons a t ih =>
    cases h : p a <;> simp [List.filter_cons, h, ← ih] <;> omega

lemma not_both_filters_ne_nil_of_small (p : α → Bool) (l : List α)
    (h : l.length ≤ 1) :
    ¬(l.filter p ≠ [] ∧ l.filter (fun a => !p a) ≠ []) := by
  rintro ⟨h1, h2⟩
  have e := length_filter_add_length_filter_not p l
  have p1 := List.length_pos.2 h1
  have p2 := List.length_pos.2 h2
  omega

lemma ruleStep_of_small (pred : PhotoFile → Bool)
    (st : List PhotoFile × List PhotoFile) (h : st.2.length ≤ 1) :
    ruleStep pred st = st := by
  simp only [ruleStep]
  rw [if_neg (not_both_filters_ne_nil_of_small pred st.2 h)]

lemma one_lt_length_of_both_filters_ne_nil (p : α → Bool) (l : List α)
    (h : l.filter p ≠ [] ∧ l.filter (fun a => !p a) ≠ []) : 1 < l.length := by
  have e := length_filter_add_length_filter_not p l
  have p1 := List.length_pos.2 h.1
  have p2 := List.length_pos.2 h.2
  omega

/-- The source's `candidates.length > 1` guards in rules 2 and 3 are
redundant: a list of length at most 1 cannot split into two non-empty
filters. -/
lemma ite_length_guard {β : Type _} (l : List PhotoFile)
    (pred : PhotoFile → Bool) (X Y : β) :
    (if 1 < l.length then
        (if l.filter pred ≠ [] ∧ l.filter (fun p => !pred p) ≠ [] then X else Y)
      else Y)
    = (if l.filter pred ≠ [] ∧ l.filter (fun p => !pred p) ≠ [] then X
       else Y) := by
  by_cases c : l.filter pred ≠ [] ∧ l.filter (fun p => !pred p) ≠ []
  · rw [if_pos (one_lt_length_of_both_filters_ne_nil pred l c)]
  · rw [if_neg c]
    by_cases h : 1 < l.length
    · simp only [if_pos h, if_neg c]
    · rw [if_neg h]

/-- The translated `applySmartRules` computes exactly the deletion set of
the narrowing engine. Shared bridge between the claims about the engine. -/
lemma applySmartRules_eq_narrowingEngine (photos : List PhotoFile) :
    applySmartRules photos = (narrowingEngine photos).1 := by
  by_cases htop : photos.length ≤ 1
  · have h1 : ruleStep (fun p => isYearFolderPath p.path) ([], photos)
        = ([], photos) := ruleStep_of_small _ _ htop
    have h2 : ruleStep (fun p => isDateNamedFile p.path) ([], photos)
        = ([], photos) := ruleStep_of_small _ _ htop
    have h3 : ruleStep (fun p => isCameraUploadsPath p.path) ([], photos)
        = ([], photos) := ruleStep_of_small _ _ htop
    simp [applySmartRules, htop, narrowingEngine, h1, h2, h3]
  · simp only [applySmartRules, narrowingEngine, ruleStep, htop, if_false,
      Bool.and_eq_true, decide_eq_true_eq, List.length_pos]
    rw [ite_length_guard, ite_length_guard]
    split_ifs <;> simp [List.append_assoc]

/-! ### Invariants of the narrowing engine -/

/-- Engine state invariant: the surviving candidates are non-empty, both
components draw from the original photo list, and no surviving candidate
is ever in the deletion set. -/
def EngineInv (photos : List PhotoFile)
    (st : List PhotoFile × List PhotoFile) : Prop :=
  st.2 ≠ [] ∧ (∀ p ∈ st.2, p ∈ photos) ∧ (∀ q ∈ st.1, q ∈ photos) ∧
  (∀ p ∈ st.2, p ∉ st.1)

lemma ruleStep_inv (pred : PhotoFile → Bool) {photos : List PhotoFile}
    {st : List PhotoFile × List PhotoFile} (h : EngineInv photos st) :
    EngineInv photos (ruleStep pred st) := by
  obtain ⟨hne, hc, hd, hdisj⟩ := h
  simp only [ruleStep]
  split_ifs with hfire
  · refine ⟨hfire.1, ?_, ?_, ?_⟩
    · intro p hp
      exact hc p (List.mem_filter.1 hp).1
    · intro q hq
      rcases List.mem_append.1 hq with hq | hq
      · exact hd q hq
      · exact hc q (List.mem_filter.1 hq).1
    · intro p hp hmem
      have hpred : pred p = true := (List.mem_filter.1 hp).2
      rcases List.mem_append.1 hmem with hm | hm
      · exact hdisj p (List.mem_filter.1 hp).1 hm
      · have hneg := (List.mem_filter.1 hm).2
        simp [hpred] at hneg
  · exact ⟨hne, hc, hd, hdisj⟩

lemma narrowingEngine_inv (photos : List PhotoFile) (hne : photos ≠ []) :
    EngineInv photos (narrowingEngine photos) := by
  have h0 : EngineInv photos ([], photos) :=
    ⟨hne, fun _ h => h, fun q hq => absurd hq (List.not_mem_nil q),
     fun p _ hp => absurd hp (List.not_mem_nil p)⟩
  exact ruleStep_inv _ (ruleStep_inv _ (ruleStep_inv _ h0))

/-- Whatever `applySmartRules` returns came from its input list. -/
lemma applySmartRules_subset (photos : List PhotoFile) :
    ∀ q ∈ applySmartRules photos, q ∈ photos := by
  by_cases hne : photos = []
  · subst hne
    intro q hq
    simp [applySmartRules] at hq
  · rw [applySmartRules_eq_narrowingEngine]
    exact (narrowingEngine_inv photos hne).2.2.1

/-- In a non-empty photo list with distinct ids, some photo's id escapes
the deletion recommendation of `applySmartRules`. -/
lemma exists_id_not_selected (photos : List PhotoFile) (hne : photos ≠ [])
    (hnd : (photos.map (fun p => p.id)).Nodup) :
    ∃ p ∈ photos, p.id ∉ (applySmartRules photos).map (fun p => p.id) := by
  obtain ⟨hcne, hc, hd, hdisj⟩ := narrowingEngine_inv photos hne
  obtain ⟨p, hp⟩ := List.exists_mem_of_ne_nil _ hcne
  refine ⟨p, hc p hp, ?_⟩
  rw [applySmartRules_eq_narrowingEngine]
  intro hmem
  rcases List.mem_map.1 hmem with ⟨q, hq, hqid⟩
  have hqp : q = p := List.inj_on_of_nodup_map hnd (hd q hq) (hc p hp) hqid
  exact hdisj p hp (hqp ▸ hq)

/-! ### `getSmartSelections` over a list of groups -/

/-- All member ids of all groups, in order (the original first within each
group, matching `[group.original, ...group.duplicates]`). -/
def allMemberIds : List DuplicateGroup → List String
  | [] => []
  | g :: t =>
    (g.original :: g.duplicates).map (fun p => p.id) ++ allMemberIds t

lemma foldl_append_acc (f : DuplicateGroup → List String) :
    ∀ (l : List DuplicateGroup) (acc : List String),
      l.foldl (fun a g => a ++ f g) acc =
        acc ++ l.foldl (fun a g => a ++ f g) [] := by
  intro l
  induction l with
  | nil => intro acc; simp
  | cons g t ih =>
    intro acc
    simp only [List.foldl]
    rw [ih (acc ++ f g), ih ([] ++ f g)]
    simp [List.append_assoc]

lemma getSmartSelections_cons (g : DuplicateGroup) (t : List DuplicateGroup) :
    getSmartSelections (g :: t) =
      (applySmartRules (g.original :: g.duplicates)).map (fun p => p.id) ++
        getSmartSelections t := by
  simp only [getSmartSelections, List.foldl]
  rw [foldl_append_acc]
  simp

lemma selections_subset_ids :
    ∀ gs : List DuplicateGroup, ∀ i ∈ getSmartSelections gs,
      i ∈ allMemberIds gs := by
  intro gs
  induction gs with
  | nil => intro i hi; simp [getSmartSelections] at hi
  | cons g t ih =>
    intro i hi
    rw [getSmartSelections_cons] at hi
    simp only [allMemberIds, List.mem_append]
    rcases List.mem_append.1 hi with h | h
    · rcases List.mem_map.1 h with ⟨q, hq, rfl⟩
      exact Or.inl (List.mem_map.2 ⟨q, applySmartRules_subset _ q hq, rfl⟩)
    · exact Or.inr (ih i h)

lemma mem_allMemberIds_of_mem_group :
    ∀ (gs : List DuplicateGroup) (g : DuplicateGroup), g ∈ gs →
      ∀ p ∈ g.original :: g.duplicates, p.id ∈ allMemberIds gs := by
  intro gs
  induction gs with
  | nil => intro g hg; cases hg
  | cons h t ih =>
    intro g hg p hp
    simp only [allMemberIds, List.mem_append]
    rcases List.mem_cons.1 hg with rfl | hg
    · exact Or.inl (List.mem_map.2 ⟨p, hp, rfl⟩)
    · exact Or.inr (ih g hg p hp)

/-- C1, amended: when no photo id appears in two different group slots
(ids are globally distinct across the groups, as they are for groups that
partition a photo set), the deletion set of `getSmartSelections` never
covers a whole group: some member of each group stays unselected. -/
theorem smartSelect_never_selects_whole_group
    (groups : List DuplicateGroup) (g : DuplicateGroup) :
    g ∈ groups → (allMemberIds groups).Nodup →
    ∃ p ∈ g.original :: g.duplicates, p.id ∉ getSmartSelections groups := by
  induction groups with
  | nil => intro hg _; cases hg
  | cons h t ih =>
    intro hg hnd
    simp only [allMemberIds] at hnd
    have hdisj := List.disjoint_of_nodup_append hnd
    rw [getSmartSelections_cons]
    rcases List.mem_cons.1 hg with rfl | hgt
    · obtain ⟨p, hpm, hpn⟩ :=
        exists_id_not_selected (g.original :: g.duplicates) (by simp)
          (List.nodup_append.1 hnd).1
      refine ⟨p, hpm, ?_⟩
      intro hmem
      rcases List.mem_append.1 hmem with hm | hm
      · exact hpn hm
      · exact hdisj (List.mem_map.2 ⟨p, hpm, rfl⟩) (selections_subset_ids t _ hm)
    · obtain ⟨p, hpm, hpn⟩ := ih hgt (List.nodup_append.1 hnd).2.1
      refine ⟨p, hpm, ?_⟩
      intro hmem
      rcases List.mem_append.1 hmem with hm | hm
      · rcases List.mem_map.1 hm with ⟨q, hq, hqid⟩
        have hqm := applySmartRules_subset _ q hq
        have hidh : p.id ∈ (h.original :: h.duplicates).map (fun p => p.id) :=
          List.mem_map.2 ⟨q, hqm, hqid⟩
        exact hdisj hidh (mem_allMemberIds_of_mem_group t g hgt p hpm)
      · exact hpn hm

/-- A photo record with the given id and path; the remaining fields are
immaterial to smart selection. -/
def basicPhoto (i p : String) : PhotoFile :=
  { id := i, path := p, name := "", directory := "", extension := "",
    size := 0, modifiedAt := 0, hash := none, thumbnailPath := none,
    relatedFiles := [], isDuplicate := false, duplicateOf := none }

def cexYearPhoto : PhotoFile :=
  basicPhoto "cex-x" "/Dropbox/Camera Uploads/2022/a.jpg"

def cexDesktopPhoto : PhotoFile := basicPhoto "cex-y" "/Desktop/y.jpg"

def cexDatedPhoto : PhotoFile :=
  basicPhoto "cex-z" "/Dropbox/Camera Uploads/2022/2022-01-01 b.jpg"

def cexGroupA : DuplicateGroup := ⟨"cex-x", cexYearPhoto, [cexDesktopPhoto]⟩

def cexGroupB : DuplicateGroup := ⟨"cex-z", cexDatedPhoto, [cexYearPhoto]⟩

/-- C1, counterexample: when the same photo sits in two groups (which the
function's input type permits, and which `useDuplicateGroups` can produce
when a photo is both a duplicate and referenced as an original), the
returned deletion set can contain every member of a group: here every
member of `cexGroupA` is selected. -/
theorem smartSelect_selects_whole_group_on_overlapping_groups :
    cexGroupA ∈ [cexGroupA, cexGroupB] ∧
    (cexGroupA.original :: cexGroupA.duplicates).all
      (fun p => (getSmartSelections [cexGroupA, cexGroupB]).contains p.id)
      = true := by
  decide

def witnessKeptPhoto : PhotoFile :=
  basicPhoto "w-a" "/Dropbox/Camera Uploads/2022/p.jpg"

def witnessOtherPhoto : PhotoFile := basicPhoto "w-b" "/Desktop/q.jpg"

def witnessGroup : DuplicateGroup :=
  ⟨"w-a", witnessKeptPhoto, [witnessOtherPhoto]⟩

/-- Witness for the amended C1 theorem at a concrete input. -/
theorem smartSelect_never_selects_whole_group_witness :
    witnessGroup ∈ [witnessGroup] ∧ (allMemberIds [witnessGroup]).Nodup ∧
    ∃ p ∈ witnessGroup.original :: witnessGroup.duplicates,
      p.id ∉ getSmartSelections [witnessGroup] :=
  ⟨by decide, by decide,
    smartSelect_never_selects_whole_group [witnessGroup] witnessGroup
      (by decide) (by decide)⟩

/-- C2: `applySmartRules` implements exactly the ordered narrowing rule
engine described by the spec: rules 1 (year folder), 2 (date-named
filename), 3 (Camera Uploads) applied in that order, each moving the
non-empty "other" side into the deletion set only when the non-empty
"preferred" side also exists, and skipped otherwise. -/
theorem applySmartRules_is_ordered_narrowing (photos : List PhotoFile) :
    applySmartRules photos = (narrowingEngine photos).1 :=
  applySmartRules_eq_narrowingEngine photos

/-! ### C6: the safety check counts fully selected groups -/

lemma foldl_count_eq_length_filter (p : α → Bool) :
    ∀ (l : List α) (n : Nat),
      l.foldl (fun c a => if p a then c + 1 else c) n =
        n + (l.filter p).length := by
  intro l
  induction l with
  | nil => intro n; simp
  | cons a t ih =>
    intro n
    cases h : p a <;> (simp [List.filter_cons, h, ih]; try omega)

/-- C6: `getFullySelectedGroups` returns exactly the number of groups all
of whose members (original and duplicates) have their id selected. -/
theorem getFullySelectedGroups_counts_fully_selected
    (groups : List DuplicateGroup) (selectedIds : List String) :
    getFullySelectedGroups groups selectedIds =
      (groups.filter (fun g =>
        decide (∀ p ∈ g.original :: g.duplicates,
          p.id ∈ selectedIds))).length := by
  have hb : ∀ g ∈ groups,
      ((g.original :: g.duplicates).all (fun p => selectedIds.contains p.id))
        = decide (∀ p ∈ g.original :: g.duplicates, p.id ∈ selectedIds) := by
    intro g _
    rw [Bool.eq_iff_iff]
    simp [List.all_eq_true, List.contains, List.elem_iff]
  rw [getFullySelectedGroups, foldl_count_eq_length_filter,
    List.filter_congr hb]
  exact Nat.zero_add _

def s5yearPhoto : PhotoFile :=
  basicPhoto "s5-year" "/Dropbox/Camera Uploads/2022/2022-07-04 10.00.00.jpg"

def s5dscPhoto : PhotoFile :=
  basicPhoto "s5-dsc" "/Dropbox/Camera Uploads/DSC001.JPG"

def s5desktopPhoto : PhotoFile := basicPhoto "s5-desktop" "/Desktop/random.jpg"

def s5group : DuplicateGroup :=
  ⟨"s5-year", s5yearPhoto, [s5dscPhoto, s5desktopPhoto]⟩

/-- C7: on the spec's S5 group, smart selection marks exactly the DSC and
Desktop photos for deletion and leaves the year-folder photo unselected. -/
theorem smartSelect_s5_precedence :
    getSmartSelections [s5group] = [s5dscPhoto.id, s5desktopPhoto.id] ∧
    s5yearPhoto.id ∉ getSmartSelections [s5group] := by
  decide

/-! ### `useDuplicateGroups` (src/hooks/useSortedPhotos.ts:77-149)

The hook returns `[]` while loading or when the filter mode is not
`duplicates` (line 82) and finishes by reordering the group list with the
user's sort field and order (lines 126-145); the first only gates and the
second only permutes the group list. `duplicateGroups` below embeds the
group construction itself (lines 86-123); every property proved for each
`g ∈ duplicateGroups photos` is invariant under dropping or permuting
groups, so it transfers to the hook's full output. -/

/-- The JS `Map` `photoById` after `set`ting every photo in list order:
a lookup returns the last photo carrying the given id. -/
def photoById (photos : List PhotoFile) (i : String) : Option PhotoFile :=
  photos.foldl (fun acc p => if p.id = i then some p else acc) none

/-- `groupMap` update: append `p` to the member list of `key`, creating
the entry as `[orig, p]` when the key is absent. Association list in key
insertion order models the JS `Map`'s iteration order. -/
def insertMember (m : List (String × List PhotoFile)) (key : String)
    (orig p : PhotoFile) : List (String × List PhotoFile) :=
  match m with
  | [] => [(key, [orig, p])]
  | (k, ms) :: rest =>
    if k = key then (k, ms ++ [p]) :: rest
    else (k, ms) :: insertMember rest key orig p

/-- One iteration of the grouping loop (lines 95-109): a photo with
`isDuplicate` and a truthy `duplicateOf` (JS: the empty string is falsy)
whose original resolves in `photoById` joins its original's group. -/
def addToGroupMap (photos : List PhotoFile)
    (m : List (String × List PhotoFile)) (p : PhotoFile) :
    List (String × List PhotoFile) :=
  match p.duplicateOf with
  | none => m
  | some d =>
    if p.isDuplicate && (d != "") then
      match photoById photos d with
      | some orig => insertMember m d orig p
      | none => m
    else m

def buildGroupMap (photos : List PhotoFile) :
    List (String × List PhotoFile) :=
  photos.foldl (addToGroupMap photos) []

/-- Stable insertion by ascending `path.length`, modelling the comparator
`(a, b) => a.path.length - b.path.length` under the required-stable JS
sort (equal keys keep their relative order). -/
def insertByLen (p : PhotoFile) : List PhotoFile → List PhotoFile
  | [] => [p]
  | q :: qs =>
    if p.path.length ≤ q.path.length then p :: q :: qs
    else q :: insertByLen p qs

def sortByLen (l : List PhotoFile) : List PhotoFile :=
  l.foldr insertByLen []

/-- Lines 111-123: each group, members sorted by path length, shortest
first as the displayed original (`const [header, ...rest] = members`). -/
def duplicateGroups (photos : List PhotoFile) : List DuplicateGroup :=
  (buildGroupMap photos).filterMap (fun kv =>
    match sortByLen kv.2 with
    | [] => none
    | h :: t => some ⟨h.id, h, t⟩)

lemma mem_insertByLen {x p : PhotoFile} :
    ∀ l : List PhotoFile, x ∈ insertByLen p l ↔ x = p ∨ x ∈ l := by
  intro l
  induction l with
  | nil => simp [insertByLen]
  | cons q qs ih =>
    simp only [insertByLen]
    split_ifs with h
    · simp
    · simp only [List.mem_cons, ih]
      tauto

lemma mem_sortByLen {x : PhotoFile} :
    ∀ l : List PhotoFile, x ∈ sortByLen l ↔ x ∈ l := by
  intro l
  induction l with
  | nil => simp [sortByLen]
  | cons q qs ih =>
    simp only [sortByLen, List.foldr] at ih ⊢
    rw [mem_insertByLen]
    simp [ih]

/-- The head of the stable insertion sort is the first element of the
input, in input order, whose `path.length` is minimal: it is no longer
than any member, and every member placed before it in the input is
strictly longer. -/
lemma sortByLen_head_first_min :
    ∀ (l : List PhotoFile) (h : PhotoFile) (s : List PhotoFile),
      sortByLen l = h :: s →
      ∃ l1 l2, l = l1 ++ h :: l2 ∧
        (∀ q ∈ l, h.path.length ≤ q.path.length) ∧
        (∀ q ∈ l1, h.path.length < q.path.length) := by
  intro l
  induction l with
  | nil => intro h s hs; simp [sortByLen] at hs
  | cons a t ih =>
    intro h s hs
    have hs1 : insertByLen a (sortByLen t) = h :: s := hs
    cases ht : sortByLen t with
    | nil =>
      rw [ht] at hs1
      simp only [insertByLen] at hs1
      cases hs1
      refine ⟨[], t, rfl, ?_, ?_⟩
      · intro q hq
        rcases List.mem_cons.1 hq with rfl | hq
        · exact Nat.le_refl _
        · have hq2 : q ∈ sortByLen t := (mem_sortByLen t).2 hq
          rw [ht] at hq2
          cases hq2
      · intro q hq
        cases hq
    | cons m s2 =>
      rw [ht] at hs1
      obtain ⟨t1, t2, hdec, hmin, hstrict⟩ := ih m s2 ht
      simp only [insertByLen] at hs1
      split_ifs at hs1 with hle
      · cases hs1
        refine ⟨[], t, rfl, ?_, ?_⟩
        · intro q hq
          rcases List.mem_cons.1 hq with rfl | hq
          · exact Nat.le_refl _
          · exact Nat.le_trans hle (hmin q hq)
        · intro q hq
          cases hq
      · cases hs1
        refine ⟨a :: t1, t2, ?_, ?_, ?_⟩
        · rw [hdec]
          rfl
        · intro q hq
          rcases List.mem_cons.1 hq with rfl | hq
          · exact Nat.le_of_lt (Nat.not_le.1 hle)
          · exact hmin q hq
        · intro q hq
          rcases List.mem_cons.1 hq with rfl | hq
          · exact Nat.not_le.1 hle
          · exact hstrict q hq

lemma mem_duplicateGroups {photos : List PhotoFile} {g : DuplicateGroup}
    (hg : g ∈ duplicateGroups photos) :
    ∃ kv ∈ buildGroupMap photos,
      sortByLen kv.2 = g.original :: g.duplicates := by
  rcases List.mem_filterMap.1 hg with ⟨kv, hkv, heq⟩
  refine ⟨kv, hkv, ?_⟩
  cases hsort : sortByLen kv.2 with
  | nil => rw [hsort] at heq; cases heq
  | cons h t =>
    rw [hsort] at heq
    cases heq
    rfl

/-- C3, amended: the keeper (displayed original) of each group is a
member with the shortest `path.length`, and a length tie is broken by
collection order, not lexicographically: the keeper is the first member
of the group's collected member list whose path length is minimal (no
member is shorter, and every member collected before the keeper is
strictly longer). -/
theorem duplicateGroups_keeper_shortest
    (photos : List PhotoFile) (g : DuplicateGroup) :
    g ∈ duplicateGroups photos →
    (∀ d ∈ g.duplicates, g.original.path.length ≤ d.path.length) ∧
    ∃ kv ∈ buildGroupMap photos,
      sortByLen kv.2 = g.original :: g.duplicates ∧
      ∃ before after, kv.2 = before ++ g.original :: after ∧
        (∀ q ∈ kv.2, g.original.path.length ≤ q.path.length) ∧
        (∀ q ∈ before, g.original.path.length < q.path.length) := by
  intro hg
  obtain ⟨kv, hkv, hsort⟩ := mem_duplicateGroups hg
  obtain ⟨l1, l2, hdec, hmin, hstrict⟩ :=
    sortByLen_head_first_min kv.2 g.original g.duplicates hsort
  refine ⟨?_, kv, hkv, hsort, l1, l2, hdec, hmin, hstrict⟩
  intro d hd
  apply hmin
  rw [← mem_sortByLen kv.2, hsort]
  exact List.mem_cons_of_mem _ hd

/-- Strict lexicographic order on character lists (the tie-break order
named by the spec for keeper selection). -/
def lexLtChars : List Char → List Char → Bool
  | [], [] => false
  | [], _ :: _ => true
  | _ :: _, [] => false
  | a :: as, b :: bs =>
    if a < b then true else if b < a then false else lexLtChars as bs

/-- `s` is strictly lexicographically smaller than `t`. -/
def pathLexLt (s t : String) : Bool := lexLtChars s.data t.data

def c3origPhoto : PhotoFile := basicPhoto "c3-a" "bb"

def c3dupPhoto : PhotoFile :=
  { basicPhoto "c3-b" "aa" with
    isDuplicate := true
    duplicateOf := some "c3-a" }

/-- C3, counterexample: with two members of equal path length, the
displayed original is the referenced original (`"bb"`), not the
lexicographically smaller path (`"aa"`): the stable sort keeps collection
order on ties, so the lexicographic tie-break of the claim fails. -/
theorem duplicateGroups_tie_not_lexicographic :
    ∃ g ∈ duplicateGroups [c3origPhoto, c3dupPhoto],
      ∃ d ∈ g.duplicates,
        d.path.length ≤ g.original.path.length ∧
        pathLexLt d.path g.original.path = true := by
  decide

def w3longOrig : PhotoFile := basicPhoto "w3-a" "longlonglong"

def w3shortDup : PhotoFile :=
  { basicPhoto "w3-b" "tiny" with
    isDuplicate := true
    duplicateOf := some "w3-a" }

def w3group : DuplicateGroup := ⟨"w3-b", w3shortDup, [w3longOrig]⟩

/-- Witness for the amended C3 theorem at a concrete input (here the
referenced original is longer, so the keeper is the shorter duplicate
and the strictly-longer-before clause is exercised non-vacuously). -/
theorem duplicateGroups_keeper_shortest_witness :
    w3group ∈ duplicateGroups [w3longOrig, w3shortDup] ∧
    ((∀ d ∈ w3group.duplicates,
        w3group.original.path.length ≤ d.path.length) ∧
     ∃ kv ∈ buildGroupMap [w3longOrig, w3shortDup],
       sortByLen kv.2 = w3group.original :: w3group.duplicates ∧
       ∃ before after, kv.2 = before ++ w3group.original :: after ∧
         (∀ q ∈ kv.2, w3group.original.path.length ≤ q.path.length) ∧
         (∀ q ∈ before, w3group.original.path.length < q.path.length)) :=
  ⟨by decide,
    duplicateGroups_keeper_shortest [w3longOrig, w3shortDup] w3group
      (by decide)⟩

/-! ### C9: what the group map can contain -/

/-- Invariant of the grouping fold: every entry was created for a key
that some duplicate photo references and whose `photoById` lookup
succeeds, and every member is either the looked-up original of its key or
a duplicate photo referencing that key. -/
def GroupMapInv (photos : List PhotoFile)
    (m : List (String × List PhotoFile)) : Prop :=
  ∀ kv ∈ m,
    ((∃ q ∈ photos, q.isDuplicate = true ∧ q.duplicateOf = some kv.1) ∧
     (∃ o, photoById photos kv.1 = some o)) ∧
    ∀ x ∈ kv.2,
      photoById photos kv.1 = some x ∨
      (x ∈ photos ∧ x.isDuplicate = true ∧ x.duplicateOf = some kv.1)

lemma photoById_mem (photos : List PhotoFile) (i : String)
    (q : PhotoFile) (hq : photoById photos i = some q) :
    q ∈ photos ∧ q.id = i := by
  suffices h : ∀ (l : List PhotoFile) (acc : Option PhotoFile),
      (∀ r, acc = some r → r ∈ photos ∧ r.id = i) →
      (∀ r ∈ l, r ∈ photos) →
      ∀ s, l.foldl (fun acc p => if p.id = i then some p else acc) acc
            = some s →
        s ∈ photos ∧ s.id = i by
    exact h photos none (by intro r hr; cases hr) (fun r hr => hr) q hq
  intro l
  induction l with
  | nil => intro acc hacc _ s hs; exact hacc s hs
  | cons p t ih =>
    intro acc hacc hmem s hs
    simp only [List.foldl] at hs
    refine ih _ ?_ (fun r hr => hmem r (List.mem_cons_of_mem _ hr)) s hs
    intro r hr
    by_cases hid : p.id = i
    · rw [if_pos hid] at hr
      cases hr
      exact ⟨hmem p (List.mem_cons_self _ _), hid⟩
    · rw [if_neg hid] at hr
      exact hacc r hr

lemma insertMember_inv {photos : List PhotoFile} {key : String}
    {orig p : PhotoFile}
    (horig : photoById photos key = some orig)
    (hp : p ∈ photos ∧ p.isDuplicate = true ∧ p.duplicateOf = some key) :
    ∀ m : List (String × List PhotoFile), GroupMapInv photos m →
      GroupMapInv photos (insertMember m key orig p) := by
  intro m
  induction m with
  | nil =>
    intro _ kv hkv
    simp only [insertMember, List.mem_singleton] at hkv
    subst hkv
    refine ⟨⟨⟨p, hp.1, hp.2.1, hp.2.2⟩, ⟨orig, horig⟩⟩, ?_⟩
    intro x hx
    rcases List.mem_cons.1 hx with rfl | hx
    · exact Or.inl horig
    · rcases List.mem_singleton.1 hx with rfl
      exact Or.inr hp
  | cons kv0 rest ih =>
    intro hinv kv hkv
    obtain ⟨k, ms⟩ := kv0
    simp only [insertMember] at hkv
    split_ifs at hkv with hkey
    · subst hkey
      rcases List.mem_cons.1 hkv with rfl | hkv
      · have hhead := hinv (k, ms) (List.mem_cons_self _ _)
        refine ⟨hhead.1, ?_⟩
        intro x hx
        rcases List.mem_append.1 hx with hx | hx
        · exact hhead.2 x hx
        · rcases List.mem_singleton.1 hx with rfl
          exact Or.inr hp
      · exact hinv kv (List.mem_cons_of_mem _ hkv)
    · rcases List.mem_cons.1 hkv with rfl | hkv
      · exact hinv _ (List.mem_cons_self _ _)
      · exact ih (fun kv1 hkv1 => hinv kv1 (List.mem_cons_of_mem _ hkv1))
          kv hkv

lemma buildGroupMap_inv (photos : List PhotoFile) :
    GroupMapInv photos (buildGroupMap photos) := by
  suffices h : ∀ (l : List PhotoFile) (m : List (String × List PhotoFile)),
      (∀ p ∈ l, p ∈ photos) → GroupMapInv photos m →
      GroupMapInv photos (l.foldl (addToGroupMap photos) m) by
    exact h photos [] (fun p hp => hp) (fun kv hkv => absurd hkv (List.not_mem_nil kv))
  intro l
  induction l with
  | nil => intro m _ hinv; exact hinv
  | cons p t ih =>
    intro m hmem hinv
    simp only [List.foldl]
    refine ih _ (fun r hr => hmem r (List.mem_cons_of_mem _ hr)) ?_
    unfold addToGroupMap
    split
    · exact hinv
    · rename_i d hd
      split_ifs with hguard
      · simp only [Bool.and_eq_true] at hguard
        split
        · rename_i orig hlook
          exact insertMember_inv hlook
            ⟨hmem p (List.mem_cons_self _ _), hguard.1, hd⟩ m hinv
        · exact hinv
      · exact hinv

/-- C9, amended: a photo whose `duplicateOf` resolves to no photo in the
list contributes no group through its own entry; provided additionally no
other photo references its id as original, it appears nowhere in the
output of `useDuplicateGroups` — neither as a group original nor among
any group's duplicates. (Without the second proviso it can still surface
as a member of the group another photo builds around it.) -/
theorem danglingDuplicate_omitted (photos : List PhotoFile) (p : PhotoFile) :
    p.isDuplicate = true →
    (∀ q ∈ photos, some q.id ≠ p.duplicateOf) →
    (∀ q ∈ photos, q.duplicateOf ≠ some p.id) →
    ∀ g ∈ duplicateGroups photos, g.original ≠ p ∧ p ∉ g.duplicates := by
  intro _ hdang href g hg
  obtain ⟨kv, hkv, hsort⟩ := mem_duplicateGroups hg
  have hinv := buildGroupMap_inv photos kv hkv
  have hnp : ∀ x ∈ kv.2, x ≠ p := by
    intro x hx hxp
    subst hxp
    rcases hinv.2 x hx with hlook | ⟨hmem, _, hdof⟩
    · obtain ⟨hxmem, hxid⟩ := photoById_mem photos kv.1 x hlook
      obtain ⟨q, hqmem, _, hqd⟩ := hinv.1.1
      exact href q hqmem (by rw [hqd, ← hxid])
    · obtain ⟨o, ho⟩ := hinv.1.2
      obtain ⟨homem, hoid⟩ := photoById_mem photos kv.1 o ho
      exact hdang o homem (by rw [hdof, hoid])
  have hmem_of : ∀ x, x ∈ g.original :: g.duplicates → x ∈ kv.2 := by
    intro x hx
    rw [← hsort] at hx
    exact (mem_sortByLen kv.2).1 hx
  constructor
  · intro horig
    exact hnp g.original (hmem_of _ (List.mem_cons_self _ _)) horig
  · intro hdup
    exact hnp p (hmem_of p (List.mem_cons_of_mem _ hdup)) rfl

def c9danglingPhoto : PhotoFile :=
  { basicPhoto "c9-x" "p1" with
    isDuplicate := true
    duplicateOf := some "c9-gone" }

def c9referrerPhoto : PhotoFile :=
  { basicPhoto "c9-y" "longerpath" with
    isDuplicate := true
    duplicateOf := some "c9-x" }

/-- C9, counterexample: `c9danglingPhoto` has `isDuplicate = true` and a
`duplicateOf` (`"c9-gone"`) matching no photo in the list, yet it is not
omitted: another photo references it as original, so it surfaces as the
group's original. -/
theorem danglingDuplicate_not_omitted_when_referenced :
    c9danglingPhoto.isDuplicate = true ∧
    c9danglingPhoto.duplicateOf = some "c9-gone" ∧
    (∀ q ∈ [c9danglingPhoto, c9referrerPhoto], q.id ≠ "c9-gone") ∧
    (duplicateGroups [c9danglingPhoto, c9referrerPhoto]).map
      (fun g => g.original) = [c9danglingPhoto] := by
  decide

def w9lonePhoto : PhotoFile :=
  { basicPhoto "w9-a" "x" with
    isDuplicate := true
    duplicateOf := some "w9-gone" }

/-- Witness for the amended C9 theorem at a concrete input. -/
theorem danglingDuplicate_omitted_witness :
    w9lonePhoto.isDuplicate = true ∧
    (∀ q ∈ [w9lonePhoto], some q.id ≠ w9lonePhoto.duplicateOf) ∧
    (∀ q ∈ [w9lonePhoto], q.duplicateOf ≠ some w9lonePhoto.id) ∧
    ∀ g ∈ duplicateGroups [w9lonePhoto],
      g.original ≠ w9lonePhoto ∧ w9lonePhoto ∉ g.duplicates :=
  ⟨by decide, by decide, by decide,
    danglingDuplicate_omitted [w9lonePhoto] w9lonePhoto
      (by decide) (by decide) (by decide)⟩

/-! ### `src/store/photoStore.ts` — file operations and the undo log

The store actions call backend commands through `invoke` and then
rescan. Each action is embedded as a pure state transformer parameterised
by the backend's response (the moved `{from, to}` pairs, the rescanned
photo list) on its success path; the payload it sends to the backend is
returned alongside the new state. `StoreState` keeps the state fields
these actions read or write; the view fields (`viewMode`, `sortField`,
`sortOrder`, `loading`, `scanProgress`) are never touched by them. -/

inductive UndoKind where
  | move
deriving DecidableEq

/-- `{from, to}` pair of `move_files` / `move_files_batch`. `from` is a
Lean keyword, so the fields are `fromPath` / `toPath`. -/
structure MoveOp where
  fromPath : String
  toPath : String
deriving DecidableEq

/-- `UndoOperation` (photoStore.ts:38-42). -/
structure UndoOperation where
  kind : UndoKind
  timestamp : Int
  operations : List MoveOp
deriving DecidableEq

structure StoreState where
  directories : List DirectoryConfig
  photos : List PhotoFile
  selectedIds : List String
  undoStack : List UndoOperation
deriving DecidableEq

/-- `scanDirectories` (photoStore.ts:167-193): with no enabled directory
it clears `photos` and performs no scan (`none`); otherwise it invokes
`scan_directories` with exactly the enabled directories' paths and stores
the scan result. -/
def scanDirectories (s : StoreState) (scanResult : List PhotoFile) :
    Option (List String) × StoreState :=
  let enabledDirs :=
    (s.directories.filter (fun d => d.enabled)).map (fun d => d.path)
  if enabledDirs.length = 0 then (none, { s with photos := [] })
  else (some enabledDirs, { s with photos := scanResult })

/-- `addDirectory` (photoStore.ts:138-148): no-op when the path is
already present, otherwise appends an enabled entry named by the last
path component (`path.split('/').pop() || path`). -/
def addDirectory (s : StoreState) (path : String) : StoreState :=
  if s.directories.any (fun d => d.path == path) then s
  else
    let nm := String.mk (lastComponent path.data)
    let name := if nm = "" then path else nm
    { s with directories := s.directories ++ [⟨path, true, name⟩] }

/-- `movePhotos` (photoStore.ts:259-284), success path: sends the
selected photos' paths and the destination, appends one `move` undo
entry holding the returned pairs, rescans. -/
def movePhotos (s : StoreState) (ids : List String) (destFolder : String)
    (backendOps : List MoveOp) (timestamp : Int)
    (scanResult : List PhotoFile) : (List String × String) × StoreState :=
  let toMove := s.photos.filter (fun p => ids.contains p.id)
  let s1 := { s with
    undoStack := s.undoStack ++ [⟨UndoKind.move, timestamp, backendOps⟩] }
  ((toMove.map (fun p => p.path), destFolder),
    (scanDirectories s1 scanResult).2)

/-- `deletePhotos` (photoStore.ts:286-299), success path: sends the
selected photos' paths to `trash_files`, clears the selection, rescans.
No undo entry. -/
def deletePhotos (s : StoreState) (ids : List String)
    (scanResult : List PhotoFile) : List String × StoreState :=
  let toDelete := s.photos.filter (fun p => ids.contains p.id)
  let s1 := { s with selectedIds := [] }
  (toDelete.map (fun p => p.path), (scanDirectories s1 scanResult).2)

/-- `renamePhoto` (photoStore.ts:301-314), success path: no-op when the
id resolves to no photo, otherwise sends `(path, newName)` to
`rename_file` and rescans. No undo entry. -/
def renamePhoto (s : StoreState) (i : String) (newName : String)
    (scanResult : List PhotoFile) : Option (String × String) × StoreState :=
  match s.photos.find? (fun p => p.id == i) with
  | none => (none, s)
  | some photo =>
    (some (photo.path, newName), (scanDirectories s scanResult).2)

/-- `createFolder` (photoStore.ts:316-323), success path: sends the path
to `create_folder` and rescans. No undo entry. -/
def createFolder (s : StoreState) (path : String)
    (scanResult : List PhotoFile) : String × StoreState :=
  (path, (scanDirectories s scanResult).2)

/-- `undo` (photoStore.ts:326-351), success path: with an empty stack it
does nothing; otherwise it sends the last entry's operations to
`move_files_batch`, each swapped to `{from: op.to, to: op.from}` in the
order they are stored, pops the entry, rescans. -/
def undo (s : StoreState) (scanResult : List PhotoFile) :
    Option (List MoveOp) × StoreState :=
  match s.undoStack.getLast? with
  | none => (none, s)
  | some lastOp =>
    let args :=
      match lastOp.kind with
      | UndoKind.move =>
        some (lastOp.operations.map (fun op => ⟨op.toPath, op.fromPath⟩))
    let s1 := { s with undoStack := s.undoStack.dropLast }
    (args, (scanDirectories s1 scanResult).2)

lemma scanDirectories_undoStack (s : StoreState) (r : List PhotoFile) :
    ((scanDirectories s r).2).undoStack = s.undoStack := by
  simp only [scanDirectories]
  split_ifs <;> rfl

/-- C4, amended: `undo()` on a non-empty stack pops exactly the last
entry and invokes `move_batch` with each operation swapped to
`{from: op.to, to: op.from}`, in the stored order (not reversed). -/
theorem undo_pops_last_and_swaps (s : StoreState)
    (scanResult : List PhotoFile) (lastOp : UndoOperation)
    (h : s.undoStack.getLast? = some lastOp) :
    (undo s scanResult).1 =
      some (lastOp.operations.map (fun op => ⟨op.toPath, op.fromPath⟩)) ∧
    (undo s scanResult).2.undoStack = s.undoStack.dropLast := by
  obtain ⟨kind, ts, ops⟩ := lastOp
  cases kind
  constructor
  · simp only [undo, h]
  · simp only [undo, h]
    exact scanDirectories_undoStack _ _

def c4op1 : MoveOp := ⟨"/src/a", "/dst/a"⟩

def c4op2 : MoveOp := ⟨"/src/b", "/dst/b"⟩

def c4state : StoreState :=
  ⟨[], [], [], [⟨UndoKind.move, 0, [c4op1, c4op2]⟩]⟩

/-- C4, counterexample: the batch sent by `undo` keeps the stored
operation order; it is not the reversed list the claim demands. -/
theorem undo_batch_not_reversed :
    (undo c4state []).1 =
      some [⟨"/dst/a", "/src/a"⟩, ⟨"/dst/b", "/src/b"⟩] ∧
    (undo c4state []).1 ≠
      some (([⟨"/dst/a", "/src/a"⟩,
              ⟨"/dst/b", "/src/b"⟩] : List MoveOp).reverse) := by
  decide

def c4wOp : MoveOp := ⟨"/old/x", "/new/x"⟩

def c4wEntry : UndoOperation := ⟨UndoKind.move, 5, [c4wOp]⟩

def c4wState : StoreState := ⟨[], [], [], [c4wEntry]⟩

/-- Witness for the amended C4 theorem at a concrete input. -/
theorem undo_pops_last_and_swaps_witness :
    c4wState.undoStack.getLast? = some c4wEntry ∧
    ((undo c4wState []).1 =
      some (c4wEntry.operations.map (fun op => ⟨op.toPath, op.fromPath⟩)) ∧
     (undo c4wState []).2.undoStack = c4wState.undoStack.dropLast) :=
  ⟨by decide, undo_pops_last_and_swaps c4wState [] c4wEntry (by decide)⟩

/-- C5: only a successful move appends to the undo log — exactly one
`move` entry holding the returned pairs — while `deletePhotos`,
`renamePhoto` and `createFolder` leave the undo stack unchanged. -/
theorem only_move_appends_undo (s : StoreState) (ids : List String)
    (destFolder : String) (backendOps : List MoveOp) (timestamp : Int)
    (scanResult : List PhotoFile) (i newName folderPath : String) :
    ((movePhotos s ids destFolder backendOps timestamp scanResult).2).undoStack
      = s.undoStack ++ [⟨UndoKind.move, timestamp, backendOps⟩] ∧
    ((deletePhotos s ids scanResult).2).undoStack = s.undoStack ∧
    ((renamePhoto s i newName scanResult).2).undoStack = s.undoStack ∧
    ((createFolder s folderPath scanResult).2).undoStack = s.undoStack := by
  refine ⟨?_, ?_, ?_, ?_⟩
  · simp only [movePhotos]
    rw [scanDirectories_undoStack]
  · simp only [deletePhotos]
    rw [scanDirectories_undoStack]
  · simp only [renamePhoto]
    cases s.photos.find? (fun p => p.id == i) with
    | none => rfl
    | some photo => rw [scanDirectories_undoStack]
  · simp only [createFolder]
    rw [scanDirectories_undoStack]

/-- C8: whenever `scanDirectories` invokes the backend scan, the payload
is exactly the enabled directories' paths in configured order, and every
path sent belongs to an enabled directory. -/
theorem scan_uses_exactly_enabled_paths (s : StoreState)
    (scanResult : List PhotoFile) (args : List String)
    (h : (scanDirectories s scanResult).1 = some args) :
    args = (s.directories.filter (fun d => d.enabled)).map (fun d => d.path) ∧
    ∀ p ∈ args, ∃ d ∈ s.directories, d.enabled = true ∧ d.path = p := by
  by_cases hlen :
    ((s.directories.filter (fun d => d.enabled)).map
      (fun d => d.path)).length = 0
  · rw [show (scanDirectories s scanResult).1 = none from by
      simp only [scanDirectories]
      rw [if_pos hlen]] at h
    cases h
  · have hfst : (scanDirectories s scanResult).1 =
        some ((s.directories.filter (fun d => d.enabled)).map
          (fun d => d.path)) := by
      simp only [scanDirectories]
      rw [if_neg hlen]
    rw [hfst] at h
    have he := Option.some.inj h
    subst he
    refine ⟨rfl, ?_⟩
    intro p hp
    rcases List.mem_map.1 hp with ⟨d, hd, rfl⟩
    exact ⟨d, (List.mem_filter.1 hd).1, (List.mem_filter.1 hd).2, rfl⟩

def c8state : StoreState :=
  ⟨[⟨"/roots/a", true, "a"⟩, ⟨"/roots/b", false, "b"⟩], [], [], []⟩

/-- Witness for the C8 theorem at a concrete input. -/
theorem scan_uses_exactly_enabled_paths_witness :
    (scanDirectories c8state []).1 = some ["/roots/a"] ∧
    (["/roots/a"] =
        (c8state.directories.filter (fun d => d.enabled)).map
          (fun d => d.path) ∧
     ∀ p ∈ ["/roots/a"],
       ∃ d ∈ c8state.directories, d.enabled = true ∧ d.path = p) :=
  ⟨by decide, scan_uses_exactly_enabled_paths c8state [] ["/roots/a"] (by decide)⟩

/-- C10: `addDirectory` with a path already in the directory list leaves
the whole store state unchanged (in particular the directory list). -/
theorem addDirectory_idempotent_on_existing (s : StoreState) (path : String)
    (h : s.directories.any (fun d => d.path == path) = true) :
    addDirectory s path = s := by
  unfold addDirectory
  rw [if_pos h]

def c10state : StoreState := ⟨[⟨"/p/q", true, "q"⟩], [], [], []⟩

/-- Witness for the C10 theorem at a concrete input. -/
theorem addDirectory_idempotent_on_existing_witness :
    c10state.directories.any (fun d => d.path == "/p/q") = true ∧
    addDirectory c10state "/p/q" = c10state :=
  ⟨by decide, addDirectory_idempotent_on_existing c10state "/p/q" (by decide)⟩
